import Mathlib

/-!
Shallow embedding of the `ladybug` crazyhouse-style chess variant engine:
`src/board.rs` (the `Bughouse` position model) and `src/engine.rs` (the MCTS
search tree).  The external `shakmaty` rules engine is out of scope of the
source and is modelled abstractly: its per-position outputs (occupied
squares, checkers, standard legal moves, ...) are fields of the `Chess`
state, and its pure helpers (`attacks::between`, move application) are
explicit function parameters.  Machine integers (`u8`, `usize`, `u32`) are
modelled as `Nat`, `i32` as `Int`, and `f32` win scores as `ℚ`; the
`f32::MAX` sentinel used for unvisited children is modelled as a distinguished
top score value.
-/

namespace Ladybug

/-- Piece colour, `shakmaty::Color`. -/
inductive Color where
  | white
  | black
deriving DecidableEq, Repr

/-- Opposite colour; `shakmaty` implements `std::ops::Not` for `Color`. -/
def Color.not : Color → Color
  | .white => .black
  | .black => .white

/-- Piece role, `shakmaty::Role`. -/
inductive Role where
  | pawn
  | knight
  | bishop
  | rook
  | queen
  | king
deriving DecidableEq, Repr

/-- Board square index 0..63 (file + 8 * rank), `shakmaty::Square`. -/
abbrev Square := Fin 64

/-- Set of squares, `shakmaty::Bitboard`. -/
abbrev Bitboard := Finset (Fin 64)

/-- Rank index (0-based) of a square. -/
def Square.rankIdx (s : Square) : Nat := s.val / 8

/-- Squares of the first and eighth ranks, `Bitboard::BACKRANKS`. -/
def backranks : Bitboard :=
  Finset.univ.filter (fun s => Square.rankIdx s = 0 ∨ Square.rankIdx s = 7)

/-- Squares of the given colour's own first rank,
`Bitboard::relative_rank(color, Rank::First)`. -/
def relativeFirstRank (c : Color) : Bitboard :=
  Finset.univ.filter (fun s => Square.rankIdx s = match c with | .white => 0 | .black => 7)

/-- Ascending list of a bitboard's squares, modelling bitboard iteration
order (lowest square index first). -/
def Bitboard.asc (b : Bitboard) : List Square :=
  (List.finRange 64).filter (fun s => s ∈ b)

/-- The unique element of a one-element bitboard, `Bitboard::single_square`
(`None` when the board is empty or has two or more squares). -/
def Bitboard.singleSquare (b : Bitboard) : Option Square :=
  if b.card = 1 then b.asc.head? else none

/-- Per-role piece counts of one side's pocket, `shakmaty::MaterialSide`
(the source's `u8` counters are modelled as `Nat`). -/
structure MaterialSide where
  pawns : Nat
  knights : Nat
  bishops : Nat
  rooks : Nat
  queens : Nat
  kings : Nat
deriving DecidableEq, Repr

/-- Count of the given role, `MaterialSide::by_role`. -/
def MaterialSide.byRole (s : MaterialSide) : Role → Nat
  | .pawn => s.pawns
  | .knight => s.knights
  | .bishop => s.bishops
  | .rook => s.rooks
  | .queen => s.queens
  | .king => s.kings

/-- Replace the count of the given role (used to model `by_role_mut`). -/
def MaterialSide.setRole (s : MaterialSide) : Role → Nat → MaterialSide
  | .pawn, n => { s with pawns := n }
  | .knight, n => { s with knights := n }
  | .bishop, n => { s with bishops := n }
  | .rook, n => { s with rooks := n }
  | .queen, n => { s with queens := n }
  | .king, n => { s with kings := n }

/-- Increment the count of the given role by one (`*by_role_mut(r) += 1`). -/
def MaterialSide.incrRole (s : MaterialSide) (r : Role) : MaterialSide :=
  s.setRole r (s.byRole r + 1)

/-- Decrement the count of the given role by one (`*by_role_mut(r) -= 1`).
The source decrements a `u8`; on a zero count that is an arithmetic
underflow (a panic in debug builds), while this `Nat` model truncates at
zero.  The two agree whenever the count is positive, which the legal-move
generator guarantees for every generated `Put` move. -/
def MaterialSide.decrRole (s : MaterialSide) (r : Role) : MaterialSide :=
  s.setRole r (s.byRole r - 1)

/-- Total piece count of one side, `MaterialSide::count`. -/
def MaterialSide.count (s : MaterialSide) : Nat :=
  s.pawns + s.knights + s.bishops + s.rooks + s.queens + s.kings

/-- Pointwise sum of two sides' material, `MaterialSide + MaterialSide`. -/
def MaterialSide.add (a b : MaterialSide) : MaterialSide :=
  ⟨a.pawns + b.pawns, a.knights + b.knights, a.bishops + b.bishops,
    a.rooks + b.rooks, a.queens + b.queens, a.kings + b.kings⟩

/-- Empty material, `MaterialSide::default`. -/
def MaterialSide.empty : MaterialSide := ⟨0, 0, 0, 0, 0, 0⟩

/-- Both sides' pocket material, `shakmaty::Material`. -/
structure Material where
  white : MaterialSide
  black : MaterialSide
deriving DecidableEq, Repr

/-- The given colour's side, `Material::by_color`. -/
def Material.byColor (m : Material) : Color → MaterialSide
  | .white => m.white
  | .black => m.black

/-- Apply an update to the given colour's side (models `by_color_mut`). -/
def Material.updColor (m : Material) (c : Color) (f : MaterialSide → MaterialSide) : Material :=
  match c with
  | .white => { m with white := f m.white }
  | .black => { m with black := f m.black }

/-- Total piece count of both sides, `Material::count`. -/
def Material.count (m : Material) : Nat := m.white.count + m.black.count

/-- Pointwise sum, `Material + Material` (`std::ops::Add`). -/
def Material.add (a b : Material) : Material :=
  ⟨a.white.add b.white, a.black.add b.black⟩

/-- Empty material, `Material::default`. -/
def Material.empty : Material := ⟨MaterialSide.empty, MaterialSide.empty⟩

/-- Move, `shakmaty::Move`. -/
inductive Move where
  | normal (role : Role) (fromSq : Square) (toSq : Square)
      (capture : Option Role) (promotion : Option Role)
  | enPassant (fromSq : Square) (toSq : Square)
  | castle (kingSq : Square) (rookSq : Square)
  | put (role : Role) (toSq : Square)
deriving DecidableEq, Repr

/-- Whether a move is a `Put` (drop) move. -/
def Move.isPut : Move → Bool
  | .put _ _ => true
  | _ => false

/-- Position-validation error flag, `shakmaty::PositionErrorKinds` bits.
Only the flags `board.rs` manipulates are distinguished; every other base
engine flag is collapsed into `otherBase`. -/
inductive PositionErrorKind where
  | variant
  | tooManyKings
  | impossibleMaterial
  | otherBase
deriving DecidableEq

/-- Set of error flags, modelling the `PositionErrorKinds` bitflags value. -/
abbrev PositionErrorKinds := Finset PositionErrorKind

/-- Structured construction error, `board.rs::BughousePositionError`. -/
structure BughousePositionError where
  errors : PositionErrorKinds
deriving DecidableEq

/-- Abstract state of the external standard-chess rules engine
(`shakmaty::Chess`), recording exactly the queries `board.rs` makes of it:
occupied squares, promoted-piece squares, board pawn count, side to move,
castling-rights squares, checkers of the side to move, king locations, and
the standard legal-move list. -/
structure Chess where
  occupied : Bitboard
  promoted : Bitboard
  pawnsCount : Nat
  turn : Color
  castlingRights : Bitboard
  checkers : Bitboard
  kingOf : Color → Option Square
  legalList : List Move

/-- The variant position, `board.rs::Bughouse`: a base-engine position plus
both sides' pockets. -/
structure Bughouse where
  chess : Chess
  pockets : Material

/-- Validated construction, `Bughouse::from_setup`.  The base engine's own
validation (`Chess::from_setup`) is external, so its outcome is taken as the
`base` argument; `setupPockets` is `setup.pockets()`.  On base failure the
base error kinds propagate unchanged.  Otherwise: flag `VARIANT` when pocket
count plus board occupancy exceeds 64, else flag `TOO_MANY_KINGS` when either
pocket holds a king; clear `IMPOSSIBLE_MATERIAL` when occupancy is within 64
and total pawns within 32; fail iff any flag remains. -/
def Bughouse.from_setup (base : Except PositionErrorKinds Chess)
    (setupPockets : Option Material) : Except BughousePositionError Bughouse :=
  match base with
  | .error e => .error ⟨e⟩
  | .ok chess =>
    let pockets := setupPockets.getD Material.empty
    let errors : PositionErrorKinds := ∅
    let errors :=
      if 64 < pockets.count + chess.occupied.card then
        insert PositionErrorKind.variant errors
      else if 0 < pockets.white.kings ∨ 0 < pockets.black.kings then
        insert PositionErrorKind.tooManyKings errors
      else errors
    let errors :=
      if pockets.count + chess.occupied.card ≤ 64 ∧
          pockets.white.pawns + pockets.black.pawns + chess.pawnsCount ≤ 32 then
        errors.erase PositionErrorKind.impossibleMaterial
      else errors
    if errors ≠ ∅ then .error ⟨errors⟩ else .ok ⟨chess, pockets⟩

/-- The side to move's pocket, `Bughouse::our_pocket`. -/
def Bughouse.our_pocket (b : Bughouse) : MaterialSide :=
  b.pockets.byColor b.chess.turn

/-- Legal drop squares, `Bughouse::legal_put_squares`.  The external helper
`attacks::between` (squares strictly between two squares, both endpoints
excluded) is passed as the `between` argument. -/
def Bughouse.legal_put_squares (between : Square → Square → Bitboard)
    (b : Bughouse) : Bitboard :=
  let checkers := b.chess.checkers
  if checkers = ∅ then
    b.chess.occupiedᶜ
  else
    match checkers.singleSquare with
    | some checker =>
      match b.chess.kingOf b.chess.turn with
      | some king => between checker king
      | none => ∅
    | none => ∅

/-- Pocket top-up, `Bughouse::add_material`: adds the given material to the
pockets with no validation whatsoever. -/
def Bughouse.add_material (b : Bughouse) (material : Material) : Bughouse :=
  { b with pockets := b.pockets.add material }

/-- Move application, `Bughouse::play_unchecked`: update the pockets (using
the pre-move side to move), then delegate the board/turn/counter update to
the external engine, passed as the `step` argument. -/
def Bughouse.play_unchecked (step : Chess → Move → Chess) (b : Bughouse)
    (m : Move) : Bughouse :=
  let pockets :=
    match m with
    | .normal _ _ toSq (some capture) _ =>
      let captured := if toSq ∈ b.chess.promoted then Role.pawn else capture
      b.pockets.updColor b.chess.turn (fun s => s.incrRole captured)
    | .enPassant _ _ =>
      b.pockets.updColor b.chess.turn (fun s => s.incrRole Role.pawn)
    | .put role _ =>
      b.pockets.updColor b.chess.turn (fun s => s.decrRole role)
    | _ => b.pockets
  { chess := step b.chess m, pockets := pockets }

/-- Net change of the board's occupied-square count that the external
engine's move application produces for each move kind, per its documented
behaviour on legal moves: a capture (normal or en passant) removes one
piece net, a drop places one piece on an empty square, and every other
move relocates pieces without changing their number. -/
def moveOccDelta : Move → Int
  | .normal _ _ _ (some _) _ => -1
  | .enPassant _ _ => -1
  | .put _ _ => 1
  | _ => 0

/-- Legal moves, `Bughouse::legal_moves`: the base engine's legal moves,
then for each drop target square one `Put` per piece role the mover's pocket
holds, then pawn drops on every target square off the back ranks.  Bitboard
iteration is in ascending square order. -/
def Bughouse.legal_moves (between : Square → Square → Bitboard)
    (b : Bughouse) : List Move :=
  let pocket := b.our_pocket
  let targets := b.legal_put_squares between
  let piecePuts :=
    targets.asc.flatMap (fun toSq =>
      ([Role.knight, Role.bishop, Role.rook, Role.queen].filter
        (fun r => 0 < pocket.byRole r)).map (fun r => Move.put r toSq))
  let pawnPuts :=
    if 0 < pocket.pawns then
      (targets \ backranks).asc.map (fun toSq => Move.put Role.pawn toSq)
    else []
  b.chess.legalList ++ piecePuts ++ pawnPuts

/-- Irreversibility test, `Bughouse::is_irreversible`: castles always; a
normal move when its from- or to-square carries castling rights, or when a
king moves while the side to move still has a castling right on its own
first rank; nothing else. -/
def Bughouse.is_irreversible (b : Bughouse) (m : Move) : Bool :=
  match m with
  | .castle _ _ => true
  | .normal role fromSq toSq _ _ =>
    decide (fromSq ∈ b.chess.castlingRights) ||
      decide (toSq ∈ b.chess.castlingRights) ||
      (decide (role = Role.king) &&
        decide ((b.chess.castlingRights ∩ relativeFirstRank b.chess.turn) ≠ ∅))
  | _ => false

/-! Search tree, `src/engine.rs`.  The tree code is generic here over the
position type `P` and move type `M` together with a `Rules` record giving
legal-move enumeration and move application; the source instantiates these
with `Bughouse` and `shakmaty::Move`, whose own legality queries defer to
the external engine. -/

/-- Game-rule operations the tree uses.  `play` models `Position::play` on
its success path; the source aborts the process on the failure path
("Illegal move played from legal move list"). -/
structure Rules (P : Type) (M : Type) where
  legalMoves : P → List M
  play : P → M → P

/-- Game result, `shakmaty::Outcome`. -/
inductive Outcome where
  | decisive (winner : Color)
  | draw
deriving DecidableEq

/-- Search-tree node, `engine.rs::Node`.  `wins` is an `f32` in the source,
modelled as `ℚ`; `simulations` is an `i32`, modelled as `Int`. -/
structure Node (P : Type) where
  side_that_moved : Color
  position : P
  wins : ℚ
  simulations : Int
  children : List Nat

/-- Arena of nodes, `engine.rs::Tree`; `NodeId` is the index into `nodes`. -/
structure Tree (P : Type) where
  nodes : List (Node P)

/-- Arena indexing, the `Index<NodeId> for Tree` impl.  The source panics on
an out-of-range id; the model returns a default node there, and every
theorem that indexes carries an in-range hypothesis. -/
def Tree.getNode {P : Type} [Inhabited P] (t : Tree P) (i : Nat) : Node P :=
  t.nodes.getD i ⟨Color.white, default, 0, 0, []⟩

/-- UCT score value: `val q` is a finite `f32` score and `inf` is the
`f32::MAX` sentinel the source assigns to unvisited children. -/
inductive Score where
  | val (q : ℚ)
  | inf
deriving DecidableEq

/-- Strict comparison of scores, modelling `f32` `>` in `select_next` (the
sentinel compares above every finite score). -/
def Score.ltb : Score → Score → Bool
  | .val p, .val q => decide (p < q)
  | .val _, .inf => true
  | .inf, _ => false

/-- Exploration constant of the UCT formula, `1.414` in the source. -/
def explorationConstant : ℚ := 1.414

/-- UCT score of a child, the `uct` closure in `Tree::select_next`.  The
`f32` functions `ln` and `sqrt` are external to the model and passed as the
arguments `lnQ` and `sqrtQ`. -/
def Tree.uct {P : Type} [Inhabited P] (lnQ sqrtQ : ℚ → ℚ) (t : Tree P)
    (node : Node P) (childId : Nat) : Score :=
  let child := t.getNode childId
  if child.simulations = 0 then Score.inf
  else
    Score.val (child.wins / (child.simulations : ℚ) +
      explorationConstant * sqrtQ (lnQ ((node.simulations : ℚ)) / (child.simulations : ℚ)))

/-- One step of `select_next`'s fold: keep the child with the strictly
highest UCT score seen so far. -/
def Tree.selectStep {P : Type} [Inhabited P] (lnQ sqrtQ : ℚ → ℚ) (t : Tree P)
    (node : Node P) (acc : Option Nat × Score) (childId : Nat) : Option Nat × Score :=
  let uctScore := t.uct lnQ sqrtQ node childId
  if Score.ltb acc.2 uctScore then (some childId, uctScore) else acc

/-- Child selection, `Tree::select_next`: fold over the children keeping the
strictly highest UCT score, starting from `(None, -1.0)`. -/
def Tree.select_next {P : Type} [Inhabited P] (lnQ sqrtQ : ℚ → ℚ) (t : Tree P)
    (nodeId : Nat) : Option Nat :=
  let node := t.getNode nodeId
  (node.children.foldl (t.selectStep lnQ sqrtQ node)
    ((none : Option Nat), Score.val (-1))).1

/-- Descent loop body of `Tree::select_branch`.  The source iterates
`while let Some(next) = select_next(last)` with no bound; on every tree the
source in fact builds (child ids strictly exceed their parent's id) the
descent visits strictly increasing ids, so `t.nodes.length` steps of fuel
are enough, and the model truncates only on cyclic id graphs, where the
source diverges. -/
def Tree.descend {P : Type} [Inhabited P] (lnQ sqrtQ : ℚ → ℚ) (t : Tree P) :
    Nat → Nat → List Nat
  | 0, _ => []
  | fuel + 1, cur =>
    match t.select_next lnQ sqrtQ cur with
    | none => []
    | some nxt => nxt :: t.descend lnQ sqrtQ fuel nxt

/-- Root-to-leaf selection, `Tree::select_branch`. -/
def Tree.select_branch {P : Type} [Inhabited P] (lnQ sqrtQ : ℚ → ℚ) (t : Tree P)
    (root : Nat) : List Nat :=
  root :: t.descend lnQ sqrtQ t.nodes.length root

/-- Expansion, `Tree::expand_tree`: build one child node per legal move of
the node's position (side flipped, move applied, zero statistics, no
children), append them to the arena in move order via `push_node`, and
extend the node's child list with the new ids. -/
def Tree.expand_tree {P M : Type} [Inhabited P] (R : Rules P M) (t : Tree P)
    (nodeId : Nat) : Tree P :=
  let node := t.getNode nodeId
  let children : List (Node P) :=
    (R.legalMoves node.position).map (fun m =>
      { side_that_moved := node.side_that_moved.not
        position := R.play node.position m
        wins := 0
        simulations := 0
        children := [] })
  let childrenIds := List.range' t.nodes.length children.length
  { nodes := (t.nodes ++ children).set nodeId
      { node with children := node.children ++ childrenIds } }

/-- Backpropagation, `Tree::backpropagate`: for each node of the branch add
1 to `wins` when the decisive winner is the node's side that moved, 0.5 on a
draw, 0 otherwise.  (The source takes the branch as `Vec<&mut Node>` and
mutates in place; the model returns the updated nodes.) -/
def backpropagate {P : Type} (branch : List (Node P)) (result : Outcome) :
    List (Node P) :=
  branch.map (fun node =>
    { node with wins := node.wins +
        match result with
        | .decisive winner => if winner = node.side_that_moved then 1 else 0
        | .draw => (1 : ℚ) / 2 })

/-- One search iteration as the source implements it, `Tree::execute_mcts`:
select a branch, pop its last node, expand it, push it back.  The popped id
is re-pushed onto the (then discarded) local branch; no simulation and no
backpropagation is performed. -/
def Tree.execute_mcts {P M : Type} [Inhabited P] (R : Rules P M)
    (lnQ sqrtQ : ℚ → ℚ) (t : Tree P) (root : Nat) : Tree P :=
  let branch := t.select_branch lnQ sqrtQ root
  match branch.getLast? with
  | some leaf => t.expand_tree R leaf
  | none => t

/-! Concrete fixtures used by witnesses and counterexamples. -/

/-- A concrete external-engine state: two kings on e1/e8, nobody in check. -/
def chess0 : Chess where
  occupied := {(4 : Fin 64), (60 : Fin 64)}
  promoted := ∅
  pawnsCount := 0
  turn := Color.white
  castlingRights := ∅
  checkers := ∅
  kingOf := fun c => match c with | .white => some (4 : Fin 64) | .black => some (60 : Fin 64)
  legalList := []

/-- A concrete variant position with empty pockets. -/
def bug0 : Bughouse := ⟨chess0, Material.empty⟩

/-- Pockets holding one white king and seventy white pawns: together with
`chess0`'s two occupied squares the total count 73 exceeds 64. -/
def pocketsOverflowKing : Material :=
  ⟨{ MaterialSide.empty with pawns := 70, kings := 1 }, MaterialSide.empty⟩

/-- Pockets holding one white king and nothing else. -/
def pocketsOneKing : Material :=
  ⟨{ MaterialSide.empty with kings := 1 }, MaterialSide.empty⟩

/-- Pockets holding one white knight and nothing else. -/
def pocketsOneKnight : Material :=
  ⟨{ MaterialSide.empty with knights := 1 }, MaterialSide.empty⟩

/-- The variant position `chess0` with one white knight in pocket. -/
def bugKnight : Bughouse := ⟨chess0, pocketsOneKnight⟩

/-- Pockets holding forty white pawns and nothing else. -/
def pocketsFortyPawns : Material :=
  ⟨{ MaterialSide.empty with pawns := 40 }, MaterialSide.empty⟩

/-- A trivial `between` instantiation for witnesses. -/
def betweenNone : Square → Square → Bitboard := fun _ _ => ∅

/-- A trivial external move-application for witnesses. -/
def stepId : Chess → Move → Chess := fun c _ => c

/-- A concrete external move-application that realizes the occupancy
contract for drop moves: a put occupies its target square. -/
def stepPut : Chess → Move → Chess := fun ch m =>
  match m with
  | .put _ toSq => { ch with occupied := insert toSq ch.occupied }
  | _ => ch

/-- A concrete one-node search-tree node over the unit position type. -/
def nodeU : Node Unit := ⟨Color.white, (), 0, 0, []⟩

/-- Toy rules over the unit position with exactly one legal move. -/
def rulesOne : Rules Unit Unit := ⟨fun _ => [()], fun p _ => p⟩

/-- A tree holding only a root node with no children. -/
def treeRootOnly : Tree Unit := ⟨[nodeU]⟩

/-- A two-node tree: the root has one unvisited child. -/
def treeOneChild : Tree Unit := ⟨[⟨Color.white, (), 0, 0, [1]⟩, ⟨Color.black, (), 0, 0, []⟩]⟩

/-- Identity stand-in for the external `ln`/`sqrt` in witnesses. -/
def qid : ℚ → ℚ := fun q => q

/-! Helper lemmas on pockets. -/

theorem MaterialSide.byRole_setRole (s : MaterialSide) (r0 : Role) (n : Nat) (r : Role) :
    (s.setRole r0 n).byRole r = if r = r0 then n else s.byRole r := by
  cases r <;> cases r0 <;> simp [MaterialSide.setRole, MaterialSide.byRole]

theorem MaterialSide.byRole_incrRole (s : MaterialSide) (r0 : Role) (r : Role) :
    (s.incrRole r0).byRole r = s.byRole r + if r = r0 then 1 else 0 := by
  rw [MaterialSide.incrRole, MaterialSide.byRole_setRole]
  by_cases h : r = r0 <;> simp [h]

theorem Material.byColor_updColor (m : Material) (c0 : Color)
    (f : MaterialSide → MaterialSide) (c : Color) :
    (m.updColor c0 f).byColor c = if c = c0 then f (m.byColor c) else m.byColor c := by
  cases c <;> cases c0 <;> simp [Material.updColor, Material.byColor]

theorem MaterialSide.count_incrRole (s : MaterialSide) (r : Role) :
    (s.incrRole r).count = s.count + 1 := by
  cases r <;>
    simp [MaterialSide.incrRole, MaterialSide.setRole, MaterialSide.byRole,
      MaterialSide.count] <;>
    omega

theorem MaterialSide.count_decrRole_add_one (s : MaterialSide) (r : Role)
    (h : 0 < s.byRole r) : (s.decrRole r).count + 1 = s.count := by
  cases r <;>
    simp [MaterialSide.decrRole, MaterialSide.setRole, MaterialSide.byRole,
      MaterialSide.count] at * <;>
    omega

theorem MaterialSide.kings_incrRole (s : MaterialSide) (r : Role)
    (h : r ≠ Role.king) : (s.incrRole r).kings = s.kings := by
  cases r <;> first | rfl | exact absurd rfl h

theorem MaterialSide.kings_decrRole (s : MaterialSide) (r : Role)
    (h : s.kings = 0) : (s.decrRole r).kings = 0 := by
  cases r <;>
    simp [MaterialSide.decrRole, MaterialSide.setRole, MaterialSide.byRole, h]

theorem Material.count_updColor_incr (m : Material) (c : Color) (r : Role) :
    (m.updColor c (fun s => s.incrRole r)).count = m.count + 1 := by
  cases c <;>
    simp [Material.updColor, Material.count, MaterialSide.count_incrRole] <;>
    omega

theorem Material.count_updColor_decr_add_one (m : Material) (c : Color) (r : Role)
    (h : 0 < (m.byColor c).byRole r) :
    (m.updColor c (fun s => s.decrRole r)).count + 1 = m.count := by
  cases c with
  | white =>
    have hd := MaterialSide.count_decrRole_add_one m.white r h
    simp only [Material.updColor, Material.count]
    omega
  | black =>
    have hd := MaterialSide.count_decrRole_add_one m.black r h
    simp only [Material.updColor, Material.count]
    omega

theorem Material.kings_updColor_incr (m : Material) (c : Color) (r : Role)
    (h : r ≠ Role.king) (hw : m.white.kings = 0) (hb : m.black.kings = 0) :
    (m.updColor c (fun s => s.incrRole r)).white.kings = 0 ∧
    (m.updColor c (fun s => s.incrRole r)).black.kings = 0 := by
  cases c <;>
    simp [Material.updColor, MaterialSide.kings_incrRole _ _ h, hw, hb]

theorem Material.kings_updColor_decr (m : Material) (c : Color) (r : Role)
    (hw : m.white.kings = 0) (hb : m.black.kings = 0) :
    (m.updColor c (fun s => s.decrRole r)).white.kings = 0 ∧
    (m.updColor c (fun s => s.decrRole r)).black.kings = 0 := by
  cases c <;>
    simp [Material.updColor, MaterialSide.kings_decrRole _ _ hw,
      MaterialSide.kings_decrRole _ _ hb, hw, hb]

theorem Bitboard.asc_singleton (c : Square) : (({c} : Bitboard)).asc = [c] := by
  have h1 : (fun s : Square => decide (s ∈ ({c} : Bitboard)))
      = (fun s : Square => decide (s = c)) := by
    funext s
    exact decide_eq_decide.mpr Finset.mem_singleton
  rw [Bitboard.asc, h1, List.filter_eq,
    List.count_eq_one_of_mem (List.nodup_finRange 64) (List.mem_finRange c),
    List.replicate_one]

theorem MaterialSide.byRole_decrRole (s : MaterialSide) (r0 : Role) (r : Role) :
    (s.decrRole r0).byRole r = if r = r0 then s.byRole r0 - 1 else s.byRole r := by
  rw [MaterialSide.decrRole, MaterialSide.byRole_setRole]

theorem list_set_getD_self {α : Type} (l : List α) (i : Nat) (d : α) :
    l.set i (l.getD i d) = l := by
  induction l generalizing i with
  | nil => rfl
  | cons a l ih =>
    cases i with
    | zero => simp
    | succ i =>
      rw [List.getD_cons_succ]
      show a :: l.set i (l.getD i d) = a :: l
      rw [ih i]

theorem list_getD_set_self {α : Type} (l : List α) (i : Nat) (x d : α)
    (h : i < l.length) : (l.set i x).getD i d = x := by
  rw [List.getD_eq_getElem?_getD, List.getElem?_set_eq_of_lt _ h]
  rfl

theorem list_getD_set_ne {α : Type} (l : List α) (i j : Nat) (x d : α)
    (h : i ≠ j) : (l.set i x).getD j d = l.getD j d := by
  rw [List.getD_eq_getElem?_getD, List.getElem?_set_ne h,
    ← List.getD_eq_getElem?_getD]

theorem list_getD_append_add {α : Type} (l₁ l₂ : List α) (k : Nat) (d : α) :
    (l₁ ++ l₂).getD (l₁.length + k) d = l₂.getD k d := by
  rw [List.getD_eq_getElem?_getD, List.getElem?_append_right (Nat.le_add_right _ _),
    Nat.add_sub_cancel_left, ← List.getD_eq_getElem?_getD]

theorem list_getD_map {α β : Type} (f : α → β) (l : List α) (k : Nat) (d : β)
    (hk : k < l.length) : (l.map f).getD k d = f (l.get ⟨k, hk⟩) := by
  rw [List.getD_eq_getElem?_getD, List.getElem?_map, List.getElem?_eq_getElem hk]
  rfl

/-! Helper lemmas on the selection fold. -/

theorem uct_eq_inf_iff {P : Type} [Inhabited P] (lnQ sqrtQ : ℚ → ℚ) (t : Tree P)
    (node : Node P) (c : Nat) :
    t.uct lnQ sqrtQ node c = Score.inf ↔ (t.getNode c).simulations = 0 := by
  rw [Tree.uct]
  by_cases h : (t.getNode c).simulations = 0
  · simp [h]
  · simp [h]

theorem ltb_inf_false (s : Score) : Score.ltb Score.inf s = false := by
  cases s <;> rfl

theorem ltb_val_inf (q : ℚ) : Score.ltb (Score.val q) Score.inf = true := rfl

theorem selectFold_stay {P : Type} [Inhabited P] (lnQ sqrtQ : ℚ → ℚ) (t : Tree P)
    (node : Node P) (l : List Nat) (acc : Option Nat × Score)
    (hacc : acc.2 = Score.inf) :
    l.foldl (t.selectStep lnQ sqrtQ node) acc = acc := by
  induction l generalizing acc with
  | nil => rfl
  | cons h l ih =>
    have hstep : t.selectStep lnQ sqrtQ node acc h = acc := by
      rw [Tree.selectStep]
      simp only [hacc, ltb_inf_false]
      rfl
    rw [List.foldl_cons, hstep, ih acc hacc]

theorem selectFold_exists {P : Type} [Inhabited P] (lnQ sqrtQ : ℚ → ℚ) (t : Tree P)
    (node : Node P) (l : List Nat) (acc : Option Nat × Score)
    (hacc : acc.2 ≠ Score.inf)
    (hex : ∃ c ∈ l, (t.getNode c).simulations = 0) :
    ∃ c, (l.foldl (t.selectStep lnQ sqrtQ node) acc).1 = some c ∧
      (t.getNode c).simulations = 0 := by
  induction l generalizing acc with
  | nil =>
    obtain ⟨c, hc, _⟩ := hex
    cases hc
  | cons h l ih =>
    by_cases hs : (t.getNode h).simulations = 0
    · have huct : t.uct lnQ sqrtQ node h = Score.inf :=
        (uct_eq_inf_iff lnQ sqrtQ t node h).mpr hs
      have hstep : t.selectStep lnQ sqrtQ node acc h = (some h, Score.inf) := by
        rw [Tree.selectStep]
        cases hacc2 : acc.2 with
        | val q => simp [huct, hacc2, ltb_val_inf]
        | inf => exact absurd hacc2 hacc
      rw [List.foldl_cons, hstep,
        selectFold_stay lnQ sqrtQ t node l (some h, Score.inf) rfl]
      exact ⟨h, rfl, hs⟩
    · have hex' : ∃ c ∈ l, (t.getNode c).simulations = 0 := by
        obtain ⟨c, hc, hcs⟩ := hex
        rcases List.mem_cons.mp hc with rfl | hc'
        · exact absurd hcs hs
        · exact ⟨c, hc', hcs⟩
      have huct : t.uct lnQ sqrtQ node h ≠ Score.inf := by
        rw [Ne, uct_eq_inf_iff]
        exact hs
      have hacc' : (t.selectStep lnQ sqrtQ node acc h).2 ≠ Score.inf := by
        rw [Tree.selectStep]
        by_cases hlt : Score.ltb acc.2 (t.uct lnQ sqrtQ node h) = true
        · simpa [hlt] using huct
        · simp only [Bool.not_eq_true] at hlt
          simpa [hlt] using hacc
      rw [List.foldl_cons]
      exact ih _ hacc' hex'

/-! Claim theorems. -/

/-- C5: `play_unchecked` on a capturing Normal move adds exactly one piece of
the captured role to the side to move's pocket — crediting the Pawn role
instead when the destination square holds a promoted piece — and changes no
other pocket count. -/
theorem play_unchecked_capture_pocket (step : Chess → Move → Chess) (b : Bughouse)
    (role : Role) (fromSq toSq : Square) (capR : Role) (promo : Option Role)
    (c : Color) (r : Role) :
    ((Bughouse.play_unchecked step b
        (.normal role fromSq toSq (some capR) promo)).pockets.byColor c).byRole r
      = (b.pockets.byColor c).byRole r +
        (if c = b.chess.turn ∧ r = (if toSq ∈ b.chess.promoted then Role.pawn else capR)
          then 1 else 0) := by
  simp only [Bughouse.play_unchecked, Material.byColor_updColor]
  by_cases hc : c = b.chess.turn <;>
    by_cases hr : r = (if toSq ∈ b.chess.promoted then Role.pawn else capR) <;>
      simp [hc, hr, MaterialSide.byRole_incrRole]

/-- C6: `is_irreversible` holds exactly for castles and for Normal moves
whose from- or to-square carries castling rights or that move a king while
the side to move still has a castling right on its own first rank; Put and
en-passant moves are never irreversible. -/
theorem is_irreversible_characterization (b : Bughouse) :
    (∀ kingSq rookSq, Bughouse.is_irreversible b (.castle kingSq rookSq) = true)
    ∧ (∀ role fromSq toSq cap promo,
        Bughouse.is_irreversible b (.normal role fromSq toSq cap promo) = true ↔
          (fromSq ∈ b.chess.castlingRights ∨ toSq ∈ b.chess.castlingRights ∨
            (role = Role.king ∧
              (b.chess.castlingRights ∩ relativeFirstRank b.chess.turn) ≠ ∅)))
    ∧ (∀ role toSq, Bughouse.is_irreversible b (.put role toSq) = false)
    ∧ (∀ fromSq toSq, Bughouse.is_irreversible b (.enPassant fromSq toSq) = false) := by
  refine ⟨fun _ _ => rfl, fun role fromSq toSq cap promo => ?_,
    fun _ _ => rfl, fun _ _ => rfl⟩
  simp [Bughouse.is_irreversible, Bool.or_eq_true, Bool.and_eq_true,
    decide_eq_true_iff, or_assoc]

/-- C1 (code bug): `backpropagate` never touches the simulation counter.  On
a one-node branch with a draw outcome the node's simulation count stays 0
(the claim requires it to become 1) while 0.5 is added to its win score. -/
theorem backpropagate_no_simulation_increment :
    (backpropagate [nodeU] Outcome.draw).map (fun n => n.simulations) = [0]
    ∧ (backpropagate [nodeU] Outcome.draw).map (fun n => n.wins) = [1 / 2] := by
  refine ⟨by decide, ?_⟩
  norm_num [backpropagate, nodeU]

/-- C2 (code bug): `execute_mcts` performs selection and expansion only.  On
a one-node tree whose root position has one legal move, a call expands the
root with one child but leaves every win score and simulation count at 0 —
no simulation runs and no backpropagation happens, so repeated calls never
increase any simulation count. -/
theorem execute_mcts_no_statistics_update :
    (Tree.execute_mcts rulesOne qid qid treeRootOnly 0).nodes.map
        (fun n => n.simulations) = [0, 0]
    ∧ (Tree.execute_mcts rulesOne qid qid treeRootOnly 0).nodes.map
        (fun n => n.wins) = [0, 0]
    ∧ (Tree.execute_mcts rulesOne qid qid treeRootOnly 0).nodes.map
        (fun n => n.children) = [[1], []] := by
  refine ⟨?_, ?_, ?_⟩ <;> decide

/-- C3 (counterexample): a setup whose white pocket holds a king but whose
pocket-plus-board total exceeds 64 squares fails with only the `VARIANT`
flag — the `TOO_MANY_KINGS` check sits on the `else` branch, so the claimed
flag is absent. -/
theorem from_setup_pocket_king_cex :
    0 < pocketsOverflowKing.white.kings ∧
    Bughouse.from_setup (.ok chess0) (some pocketsOverflowKing)
      = .error ⟨{PositionErrorKind.variant}⟩ ∧
    PositionErrorKind.tooManyKings ∉ ({PositionErrorKind.variant} : PositionErrorKinds) := by
  refine ⟨by decide, rfl, by decide⟩

/-- C3 (amended): with a king in either pocket (and successful base
validation) `from_setup` always fails; the error carries `TOO_MANY_KINGS`
when the pocket-plus-board total is within 64, but carries only `VARIANT`
(and not `TOO_MANY_KINGS`) when the total exceeds 64. -/
theorem from_setup_pocket_king_fails (chess : Chess) (pockets : Material)
    (hk : 0 < pockets.white.kings ∨ 0 < pockets.black.kings) :
    ∃ e : BughousePositionError,
      Bughouse.from_setup (.ok chess) (some pockets) = .error e ∧
      (pockets.count + chess.occupied.card ≤ 64 →
        PositionErrorKind.tooManyKings ∈ e.errors) ∧
      (64 < pockets.count + chess.occupied.card →
        PositionErrorKind.variant ∈ e.errors ∧
        PositionErrorKind.tooManyKings ∉ e.errors) := by
  have hEraseV : (insert PositionErrorKind.variant (∅ : PositionErrorKinds)).erase
      PositionErrorKind.impossibleMaterial = insert PositionErrorKind.variant ∅ := by decide
  have hEraseK : (insert PositionErrorKind.tooManyKings (∅ : PositionErrorKinds)).erase
      PositionErrorKind.impossibleMaterial = insert PositionErrorKind.tooManyKings ∅ := by decide
  by_cases h1 : 64 < pockets.count + chess.occupied.card
  · refine ⟨⟨insert PositionErrorKind.variant ∅⟩, ?_, ?_, ?_⟩
    · simp [Bughouse.from_setup, h1, Nat.not_le.mpr h1, hEraseV, Finset.insert_ne_empty]
    · intro hle
      exact absurd hle (Nat.not_le.mpr h1)
    · intro _
      exact ⟨by decide, by decide⟩
  · refine ⟨⟨insert PositionErrorKind.tooManyKings ∅⟩, ?_, ?_, ?_⟩
    · simp [Bughouse.from_setup, h1, Nat.le_of_not_lt h1, hk, hEraseK,
        Finset.insert_ne_empty]
    · intro _
      exact Finset.mem_insert_self _ _
    · intro hgt
      exact absurd hgt h1

/-- C3 (witness): a setup with one white king in the pocket and two occupied
board squares is rejected with the `TOO_MANY_KINGS` flag. -/
theorem from_setup_pocket_king_fails_witness :
    ∃ e : BughousePositionError,
      Bughouse.from_setup (.ok chess0) (some pocketsOneKing) = .error e ∧
      (pocketsOneKing.count + chess0.occupied.card ≤ 64 →
        PositionErrorKind.tooManyKings ∈ e.errors) ∧
      (64 < pocketsOneKing.count + chess0.occupied.card →
        PositionErrorKind.variant ∈ e.errors ∧
        PositionErrorKind.tooManyKings ∉ e.errors) :=
  from_setup_pocket_king_fails chess0 pocketsOneKing (Or.inl (by decide))

/-- C9 (counterexample): the invariants are not maintained by every
operation.  `add_material` validates nothing — starting from a position
whose pockets hold no king, adding material containing a king yields a
position whose white pocket holds a king; and `from_setup` happily accepts
forty pocket pawns with zero board pawns, breaking the claimed 32-pawn
bound at construction time. -/
theorem add_material_pocket_king_cex :
    (bug0.pockets.white.kings = 0 ∧ bug0.pockets.black.kings = 0 ∧
      (bug0.add_material pocketsOneKing).pockets.white.kings = 1) ∧
    (Bughouse.from_setup (.ok chess0) (some pocketsFortyPawns)
        = .ok ⟨chess0, pocketsFortyPawns⟩ ∧
      32 < pocketsFortyPawns.white.pawns + pocketsFortyPawns.black.pawns
        + chess0.pawnsCount) := by
  exact ⟨⟨rfl, rfl, rfl⟩, rfl, by decide⟩

/-- C9 (amended): the two invariants the code actually maintains — pocket
count plus occupied squares at most 64, and no king in either pocket — hold
for every position `from_setup` constructs, and are preserved by
`play_unchecked`, stated through the collaborator contracts legality
provides: a legal capture never takes a king, a put's role is pocketed with
positive count, and the base engine's board update changes the
occupied-square count by the documented per-move-kind delta.  The 32-pawn
bound (unenforced at construction) and `add_material` (unvalidated
addition) are excluded, as the counterexample refutes them. -/
theorem invariants_construction_and_play :
    (∀ (base : Except PositionErrorKinds Chess) (setupPockets : Option Material)
        (b : Bughouse), Bughouse.from_setup base setupPockets = .ok b →
      b.pockets.count + b.chess.occupied.card ≤ 64 ∧
      b.pockets.white.kings = 0 ∧ b.pockets.black.kings = 0)
    ∧ (∀ (step : Chess → Move → Chess) (b : Bughouse) (m : Move),
        b.pockets.count + b.chess.occupied.card ≤ 64 →
        b.pockets.white.kings = 0 → b.pockets.black.kings = 0 →
        (∀ role fromSq toSq c promo,
          m = .normal role fromSq toSq (some c) promo → c ≠ Role.king) →
        (∀ role toSq, m = .put role toSq →
          0 < (b.pockets.byColor b.chess.turn).byRole role) →
        ((step b.chess m).occupied.card : Int)
          = (b.chess.occupied.card : Int) + moveOccDelta m →
        (Bughouse.play_unchecked step b m).pockets.count
            + (Bughouse.play_unchecked step b m).chess.occupied.card ≤ 64 ∧
        (Bughouse.play_unchecked step b m).pockets.white.kings = 0 ∧
        (Bughouse.play_unchecked step b m).pockets.black.kings = 0) := by
  constructor
  · intro base setupPockets b h
    cases base with
    | error e => simp [Bughouse.from_setup] at h
    | ok chess =>
      by_cases h1 : 64 < (setupPockets.getD Material.empty).count + chess.occupied.card
      · exfalso
        simp [Bughouse.from_setup, h1, Nat.not_le.mpr h1, Finset.insert_ne_empty] at h
      · by_cases h2 : 0 < (setupPockets.getD Material.empty).white.kings ∨
            0 < (setupPockets.getD Material.empty).black.kings
        · exfalso
          have hEraseK : (insert PositionErrorKind.tooManyKings
              (∅ : PositionErrorKinds)).erase PositionErrorKind.impossibleMaterial
              = insert PositionErrorKind.tooManyKings ∅ := by
            decide
          simp [Bughouse.from_setup, h1, Nat.le_of_not_lt h1, h2, hEraseK,
            Finset.insert_ne_empty] at h
        · have hb : b = ⟨chess, setupPockets.getD Material.empty⟩ := by
            have hEraseE : ((∅ : PositionErrorKinds)).erase
                PositionErrorKind.impossibleMaterial = ∅ := by decide
            simp [Bughouse.from_setup, h1, Nat.le_of_not_lt h1, h2, hEraseE] at h
            exact h.symm
          subst hb
          push_neg at h2
          exact ⟨Nat.le_of_not_lt h1, Nat.le_zero.mp h2.1, Nat.le_zero.mp h2.2⟩
  · intro step b m hinv1 hw hbk hcap hput hstep
    cases m with
    | normal role fromSq toSq cap promo =>
      cases cap with
      | none =>
        simp only [moveOccDelta] at hstep
        simp only [Bughouse.play_unchecked]
        exact ⟨by omega, hw, hbk⟩
      | some c =>
        have hck : (if toSq ∈ b.chess.promoted then Role.pawn else c) ≠ Role.king := by
          by_cases hp : toSq ∈ b.chess.promoted
          · simp [hp]
          · simpa [hp] using hcap role fromSq toSq c promo rfl
        have hcount := Material.count_updColor_incr b.pockets b.chess.turn
          (if toSq ∈ b.chess.promoted then Role.pawn else c)
        have hkings := Material.kings_updColor_incr b.pockets b.chess.turn
          (if toSq ∈ b.chess.promoted then Role.pawn else c) hck hw hbk
        simp only [moveOccDelta] at hstep
        simp only [Bughouse.play_unchecked]
        exact ⟨by omega, hkings.1, hkings.2⟩
    | enPassant fromSq toSq =>
      have hcount := Material.count_updColor_incr b.pockets b.chess.turn Role.pawn
      have hkings := Material.kings_updColor_incr b.pockets b.chess.turn Role.pawn
        (by decide) hw hbk
      simp only [moveOccDelta] at hstep
      simp only [Bughouse.play_unchecked]
      exact ⟨by omega, hkings.1, hkings.2⟩
    | castle kingSq rookSq =>
      simp only [moveOccDelta] at hstep
      simp only [Bughouse.play_unchecked]
      exact ⟨by omega, hw, hbk⟩
    | put role toSq =>
      have hpos := hput role toSq rfl
      have hcount := Material.count_updColor_decr_add_one b.pockets b.chess.turn role hpos
      have hkings := Material.kings_updColor_decr b.pockets b.chess.turn role hw hbk
      simp only [moveOccDelta] at hstep
      simp only [Bughouse.play_unchecked]
      exact ⟨by omega, hkings.1, hkings.2⟩

/-- C9 (witness): the knight-pocket position satisfies the invariants after
construction, and dropping the knight (the board update occupying a1)
preserves them. -/
theorem invariants_construction_and_play_witness :
    (bugKnight.pockets.count + bugKnight.chess.occupied.card ≤ 64 ∧
      bugKnight.pockets.white.kings = 0 ∧ bugKnight.pockets.black.kings = 0) ∧
    ((Bughouse.play_unchecked stepPut bugKnight
          (.put Role.knight (0 : Fin 64))).pockets.count
        + (Bughouse.play_unchecked stepPut bugKnight
            (.put Role.knight (0 : Fin 64))).chess.occupied.card ≤ 64 ∧
      (Bughouse.play_unchecked stepPut bugKnight
          (.put Role.knight (0 : Fin 64))).pockets.white.kings = 0 ∧
      (Bughouse.play_unchecked stepPut bugKnight
          (.put Role.knight (0 : Fin 64))).pockets.black.kings = 0) :=
  ⟨invariants_construction_and_play.1 (.ok chess0) (some pocketsOneKnight) bugKnight rfl,
   invariants_construction_and_play.2 stepPut bugKnight (.put Role.knight (0 : Fin 64))
     (by decide) rfl rfl
     (fun _ _ _ _ _ h => Move.noConfusion h)
     (fun role toSq h => by cases h; decide)
     (by decide)⟩

/-- C4: `legal_put_squares` returns the complement of the occupied squares
when there is no checker, the external engine's strictly-between span from
the single checker to the side to move's king when there is exactly one
checker (so the checker's own square is excluded whenever the span operator
excludes its endpoints), and the empty set with two or more checkers. -/
theorem legal_put_squares_cases (between : Square → Square → Bitboard) (b : Bughouse) :
    (b.chess.checkers = ∅ →
      Bughouse.legal_put_squares between b = b.chess.occupiedᶜ)
    ∧ (∀ checker king, b.chess.checkers = {checker} →
        b.chess.kingOf b.chess.turn = some king →
        Bughouse.legal_put_squares between b = between checker king ∧
        (checker ∉ between checker king →
          checker ∉ Bughouse.legal_put_squares between b))
    ∧ (2 ≤ b.chess.checkers.card →
        Bughouse.legal_put_squares between b = ∅) := by
  refine ⟨?_, ?_, ?_⟩
  · intro h
    simp [Bughouse.legal_put_squares, h]
  · intro checker king hch hk
    have hsingle : b.chess.checkers.singleSquare = some checker := by
      rw [hch, Bitboard.singleSquare, if_pos (Finset.card_singleton _),
        Bitboard.asc_singleton]
      rfl
    have heq : Bughouse.legal_put_squares between b = between checker king := by
      rw [Bughouse.legal_put_squares]
      rw [if_neg (by rw [hch]; exact Finset.singleton_ne_empty _), hsingle, hk]
    exact ⟨heq, fun hnot => heq ▸ hnot⟩
  · intro h2
    have hne : b.chess.checkers ≠ ∅ := by
      intro he
      rw [he] at h2
      simp at h2
    have hsingle : b.chess.checkers.singleSquare = none := by
      rw [Bitboard.singleSquare, if_neg]
      omega
    rw [Bughouse.legal_put_squares]
    rw [if_neg hne, hsingle]

/-- C4 (witness): with no checker, the drop squares of `bug0` are exactly
the complement of its occupied squares. -/
theorem legal_put_squares_cases_witness :
    Bughouse.legal_put_squares betweenNone bug0 = bug0.chess.occupiedᶜ :=
  (legal_put_squares_cases betweenNone bug0).1 rfl

/-- C10: any `Put` move in `legal_moves` is emitted only after checking the
mover's pocket holds the role with a positive count (given the external
engine's standard move list contains no `Put` moves, which standard chess
guarantees), so `play_unchecked`'s pocket decrement subtracts one from a
positive counter and cannot underflow. -/
theorem legal_put_move_pocket_positive (between : Square → Square → Bitboard)
    (step : Chess → Move → Chess) (b : Bughouse) (role : Role) (toSq : Square)
    (hbase : ∀ m ∈ b.chess.legalList, m.isPut = false)
    (hm : Move.put role toSq ∈ Bughouse.legal_moves between b) :
    0 < (b.pockets.byColor b.chess.turn).byRole role ∧
    ((Bughouse.play_unchecked step b (.put role toSq)).pockets.byColor
        b.chess.turn).byRole role
      = (b.pockets.byColor b.chess.turn).byRole role - 1 := by
  constructor
  · simp only [Bughouse.legal_moves, Bughouse.our_pocket, List.mem_append] at hm
    rcases hm with (hm | hm) | hm
    · have := hbase _ hm
      simp [Move.isPut] at this
    · simp only [List.mem_flatMap, List.mem_map, List.mem_filter] at hm
      obtain ⟨t0, _, r0, ⟨_, hr0⟩, heq⟩ := hm
      obtain ⟨rfl, rfl⟩ : r0 = role ∧ t0 = toSq := by
        cases heq
        exact ⟨rfl, rfl⟩
      exact of_decide_eq_true hr0
    · by_cases hp : 0 < (b.pockets.byColor b.chess.turn).pawns
      · rw [if_pos hp] at hm
        simp only [List.mem_map] at hm
        obtain ⟨t0, _, heq⟩ := hm
        obtain ⟨rfl, rfl⟩ : Role.pawn = role ∧ t0 = toSq := by
          cases heq
          exact ⟨rfl, rfl⟩
        exact hp
      · rw [if_neg hp] at hm
        cases hm
  · simp [Bughouse.play_unchecked, Material.byColor_updColor,
      MaterialSide.byRole_decrRole]

/-- C10 (witness): the knight drop on a1 is in `bugKnight`'s legal move
list, its pocket knight count is 1, and playing it leaves a count of 0. -/
theorem legal_put_move_pocket_positive_witness :
    0 < (bugKnight.pockets.byColor bugKnight.chess.turn).byRole Role.knight ∧
    ((Bughouse.play_unchecked stepId bugKnight
        (.put Role.knight (0 : Fin 64))).pockets.byColor
        bugKnight.chess.turn).byRole Role.knight
      = (bugKnight.pockets.byColor bugKnight.chess.turn).byRole Role.knight - 1 :=
  legal_put_move_pocket_positive betweenNone stepId bugKnight Role.knight (0 : Fin 64)
    (fun m hm => absurd hm (List.not_mem_nil m)) (by decide)

/-- C7: `expand_tree` on an in-range leaf appends one child node per legal
move of the leaf's position, in enumeration order, each with the opposite
side-that-moved, the leaf's position with that move applied, zero win score,
zero simulations and no children, and records the fresh arena ids as the
leaf's children; with no legal moves the tree is unchanged. -/
theorem expand_tree_spec {P M : Type} [Inhabited P] (R : Rules P M) (t : Tree P)
    (nodeId : Nat) (hlt : nodeId < t.nodes.length)
    (hleaf : (t.getNode nodeId).children = []) :
    ((Tree.expand_tree R t nodeId).nodes.length
        = t.nodes.length + (R.legalMoves (t.getNode nodeId).position).length)
    ∧ ((Tree.expand_tree R t nodeId).getNode nodeId).children
        = List.range' t.nodes.length (R.legalMoves (t.getNode nodeId).position).length
    ∧ (∀ k (hk : k < (R.legalMoves (t.getNode nodeId).position).length),
        (Tree.expand_tree R t nodeId).getNode (t.nodes.length + k)
          = { side_that_moved := (t.getNode nodeId).side_that_moved.not,
              position := R.play (t.getNode nodeId).position
                ((R.legalMoves (t.getNode nodeId).position).get ⟨k, hk⟩),
              wins := 0, simulations := 0, children := [] })
    ∧ (R.legalMoves (t.getNode nodeId).position = [] →
        Tree.expand_tree R t nodeId = t) := by
  simp only [Tree.getNode] at hleaf
  refine ⟨?_, ?_, ?_, ?_⟩
  · simp [Tree.expand_tree]
  · simp only [Tree.expand_tree, Tree.getNode]
    rw [list_getD_set_self _ _ _ _ (by simp [List.length_append]; omega)]
    simp only [hleaf, List.nil_append, List.length_map]
  · intro k hk
    simp only [Tree.getNode] at hk
    simp only [Tree.expand_tree, Tree.getNode]
    rw [list_getD_set_ne _ _ _ _ _ (by omega), list_getD_append_add,
      list_getD_map _ _ _ _ (by simpa using hk)]
  · intro h0
    simp only [Tree.getNode] at h0
    cases t with
    | mk nodes =>
      simp only [Tree.expand_tree, Tree.getNode, h0, List.map_nil, List.append_nil,
        List.length_nil, List.range'_zero]
      rw [Tree.mk.injEq]
      exact list_set_getD_self nodes nodeId _

/-- C7 (witness): expanding the one-node tree over the toy one-move rules
grows the arena by exactly the legal-move count. -/
theorem expand_tree_spec_witness :
    (Tree.expand_tree rulesOne treeRootOnly 0).nodes.length
      = treeRootOnly.nodes.length
        + (rulesOne.legalMoves (treeRootOnly.getNode 0).position).length :=
  (expand_tree_spec rulesOne treeRootOnly 0 (by decide) rfl).1

/-- C8: whenever a node has a child with zero simulations, `select_next`
returns a child with zero simulations (the unvisited child's sentinel score
strictly exceeds every finite score), and on a childless node it returns
none. -/
theorem select_next_prefers_unvisited {P : Type} [Inhabited P] (lnQ sqrtQ : ℚ → ℚ)
    (t : Tree P) (nodeId : Nat) :
    ((∃ c ∈ (t.getNode nodeId).children, (t.getNode c).simulations = 0) →
      ∃ c, Tree.select_next lnQ sqrtQ t nodeId = some c ∧
        (t.getNode c).simulations = 0)
    ∧ ((t.getNode nodeId).children = [] →
        Tree.select_next lnQ sqrtQ t nodeId = none) := by
  constructor
  · intro hex
    have h := selectFold_exists lnQ sqrtQ t (t.getNode nodeId)
      (t.getNode nodeId).children ((none : Option Nat), Score.val (-1))
      (by intro h; cases h) hex
    simpa [Tree.select_next] using h
  · intro h0
    simp [Tree.select_next, h0]

/-- C8 (witness): on the two-node tree whose root has a single unvisited
child, `select_next` returns a child with zero simulations. -/
theorem select_next_prefers_unvisited_witness :
    ∃ c, Tree.select_next qid qid treeOneChild 0 = some c ∧
      (treeOneChild.getNode c).simulations = 0 :=
  (select_next_prefers_unvisited qid qid treeOneChild 0).1
    ⟨1, by decide, by decide⟩

end Ladybug
